import Mathlib

/-!
Shallow embedding of `src/otterwiki/renderer_plugins.py` (mistune plugin
collection: footnotes, task lists, mark, fancy blocks, spoiler, fold, math)
and proofs about the claims concerning it.

Conventions:
* Python strings are Lean `String`s (a wrapper around `List Char`); helpers
  named `py...` mirror the Python string methods used by the source
  (restricted to ASCII whitespace / case, which is all the source relies on).
* Python dicts with insertion order (`def_footnotes`) are association lists.
* Code that can raise (`list.index` → `ValueError`, `item['children']` →
  `KeyError`, `params[0]` → `IndexError`) is modelled with `Option`,
  `none` standing for the raised exception.
* The mistune engine itself (rule tables, recursive `block.parse`,
  `md.block.render`) is an external collaborator; where a hook hands data to
  it, the engine call is taken as a function parameter.
-/

/-- ASCII whitespace, the characters Python's `str.strip` / `\s` treat as
space (restricted to ASCII, which is all the plugin feeds them). -/
def isPySpace (c : Char) : Bool :=
  c = ' ' || c = '\t' || c = '\n' || c = '\r' || c = '\x0b' || c = '\x0c'

/-- Python `str.strip()` on ASCII whitespace. -/
def pyStrip (s : String) : String :=
  ⟨((s.data.dropWhile isPySpace).reverse.dropWhile isPySpace).reverse⟩

/-- Python `str.rstrip()` on ASCII whitespace. -/
def pyRstrip (s : String) : String :=
  ⟨(s.data.reverse.dropWhile isPySpace).reverse⟩

/-- Python `str.lower()`, restricted to ASCII case mapping. -/
def pyLower (s : String) : String :=
  ⟨s.data.map Char.toLower⟩

/-- Python `str.split()` with no argument: split on whitespace runs,
dropping empty pieces. -/
def pySplit (s : String) : List String :=
  ((s.data.splitOnP (isPySpace ·)).filter (fun w => ¬ w.isEmpty)).map
    (fun w => ⟨w⟩)

/-- Modelled from the spec: `unikey` (imported from `mistune.util`, an
external collaborator not under `src/`) case/whitespace-normalizes footnote
keys so that `[^Note]` and `[^note]` resolve to the same definition.
mistune's implementation is `' '.join(s.split()).lower()`. -/
def unikey (s : String) : String :=
  pyLower (String.intercalate " " (pySplit s))

/-- Python `list.index` restricted to the success path: `some i` is the first
index of `x` in `l`; `none` stands for the `ValueError` raised when `x` is
absent (Python's `list.index` never returns `-1`). -/
def listIndex (l : List String) (x : String) : Option Nat :=
  match l with
  | [] => none
  | a :: l' => if a = x then some 0 else (listIndex l' x).map (· + 1)

/-- Python `list.insert(i, x)`. -/
def insertAt (l : List String) (i : Nat) (x : String) : List String :=
  match l, i with
  | l, 0 => x :: l
  | [], _ + 1 => [x]
  | a :: l', i' + 1 => a :: insertAt l' i' x

/-! ## Footnote plugin (`mistunePluginFootnotes`) -/

/-- Parse State threaded through one document render: `def_footnotes` is the
insertion-ordered mapping of normalized keys to raw definition text,
`footnotes` the keys of resolved references in render order, and
`footnote_index` the running reference counter (`state.get('footnote_index', 0)`
defaults to `0`, which is the initial field value). -/
structure FState where
  def_footnotes : List (String × String)
  footnotes : List String
  footnote_index : Nat
deriving DecidableEq, Repr

/-- Declaration-ordered key list, `list(state['def_footnotes'].keys())`. -/
def FState.defKeys (st : FState) : List String :=
  st.def_footnotes.map Prod.fst

/-- Inline token produced by `parse_inline_footnote`: either a plain `text`
node carrying the matched source, or a `footnote_ref` node carrying
`(key, fn, index)` in the order the Python tuple lists them. -/
inductive InlineTok where
  | text (s : String)
  | footnote_ref (key : String) (fn : Nat) (index : Nat)
deriving DecidableEq, Repr

/-- mistunePluginFootnotes.parse_inline_footnote. `g1` is `m.group(1)` (the
key between `[^` and `]`), `g0` is `m.group(0)` (the whole match). An
unresolvable key yields the matched text untouched; a resolvable key bumps
`footnote_index`, appends the key to `footnotes` and returns a
`footnote_ref` with `fn = list(def_footnotes.keys()).index(key) + 1`. -/
def parseInlineFootnote (g1 g0 : String) (st : FState) : InlineTok × FState :=
  let key := unikey g1
  if st.def_footnotes.isEmpty || !(st.defKeys.contains key) then
    (.text g0, st)
  else
    let index := st.footnote_index + 1
    -- the guard ensures the key is present, so `list.index` cannot raise
    let fn := (listIndex st.defKeys key).getD 0 + 1
    (.footnote_ref key fn index,
      { st with footnote_index := index, footnotes := st.footnotes ++ [key] })

/-- mistunePluginFootnotes.parse_def_footnote. `g2` is `m.group(2)` (the
key), `g3` is `m.group(3)` (the definition text). Only a key not already
present is inserted (at the end, Python dicts keep insertion order). -/
def parseDefFootnote (g2 g3 : String) (st : FState) : FState :=
  let key := unikey g2
  if st.defKeys.contains key then st
  else { st with def_footnotes := st.def_footnotes ++ [(key, g3)] }

/-- Runs `parse_inline_footnote` over a document's inline reference matches
in rendered order; `g` stands for `m.group(1)` of each match, so
`m.group(0)` is `[^` ++ g ++ `]`. -/
def processInlineRefs (st : FState) : List String → List InlineTok × FState
  | [] => ([], st)
  | g :: gs =>
    let (tok, st') := parseInlineFootnote g ("[^" ++ g ++ "]") st
    let (toks, st'') := processInlineRefs st' gs
    (tok :: toks, st'')

/-- Indices (`footnote_index` values) of the `footnote_ref` tokens, in
order. -/
def refIndices : List InlineTok → List Nat
  | [] => []
  | .footnote_ref _ _ i :: ts => i :: refIndices ts
  | .text _ :: ts => refIndices ts

/-- Inner loop of the list comprehension
`[i + 1 for i, j in enumerate(footnotes) if j == k]`, with `i` the running
`enumerate` counter. -/
def refsOfAux (k : String) : Nat → List String → List Nat
  | _, [] => []
  | i, j :: js =>
    if j = k then (i + 1) :: refsOfAux k (i + 1) js else refsOfAux k (i + 1) js

/-- One-based positions of key `k` in the rendered-order `footnotes` list:
`[i + 1 for i, j in enumerate(footnotes) if j == k]`. -/
def refsOf (fs : List String) (k : String) : List Nat :=
  refsOfAux k 0 fs

/-- Item parameters assembled by the loop in
`mistunePluginFootnotes.md_footnotes_hook`: one `(key, refs)` pair per entry
of `def_footnotes`, in declaration order, with no filtering on `refs`. Each
pair becomes the `params` of one `footnote_item` (one `<li>`): the
`children` of an item come from the recursive `block.parse_text`, an engine
call that does not affect how many items exist. -/
def mdFootnotesHookItems (st : FState) : List (String × List Nat) :=
  st.def_footnotes.map (fun kv => (kv.1, refsOf st.footnotes kv.1))

/-- mistunePluginFootnotes.md_footnotes_hook. When no reference resolved
(`footnotes` empty or missing) the rendered `result` is returned unchanged;
otherwise the assembled `footnotes` token is rendered by the engine
(`md.block.render`, taken here as the parameter `renderSection`) and
appended. -/
def mdFootnotesHook (renderSection : List (String × List Nat) → String)
    (result : String) (st : FState) : String :=
  match st.footnotes with
  | [] => result
  | _ => result ++ renderSection (mdFootnotesHookItems st)

/-- mistunePluginFootnotes._letter_from_index, on the character-list view of
the returned string. `num2alphadict` maps `1..26` to `a..z`; a zero
remainder yields `z`; the quotient `(num - 1) // 26`, when positive, is
rendered recursively in front. -/
def letterFromIndexL (num : Nat) : List Char :=
  let numloops := (num - 1) / 26
  (if _h : 0 < numloops then letterFromIndexL numloops else [])
    ++ (let remainder := num % 26
        if 0 < remainder then [Char.ofNat ('a'.toNat + remainder - 1)]
        else ['z'])
termination_by num
decreasing_by
  have := Nat.div_le_self (num - 1) 26
  omega

/-- mistunePluginFootnotes._letter_from_index as a string. -/
def letterFromIndex (num : Nat) : String :=
  ⟨letterFromIndexL num⟩

/-- Modelled from the spec: the bijective base-26 numeral of `n ≥ 1` over
the alphabet `a..z` (`1 → a`, …, `26 → z`, `27 → aa`, `28 → ab`, …), the
sequence the spec says labels duplicate back-links. -/
def bijectiveBase26L : Nat → List Char
  | 0 => []
  | n + 1 => bijectiveBase26L (n / 26) ++ [Char.ofNat ('a'.toNat + n % 26)]
decreasing_by
  have := Nat.div_le_self n 26
  omega

/-- Bijective base-26 numeral as a string. -/
def bijectiveBase26 (n : Nat) : String :=
  ⟨bijectiveBase26L n⟩

/-- Back-link markup computed at the start of
`mistunePluginFootnotes.render_html_footnote_item`: one unlabeled up-arrow
link when there is exactly one ref, otherwise one letter-labeled link per
ref after a bare up-arrow icon. -/
def footnoteBackLinks (refs : List Nat) : String :=
  if refs.length = 1 then
    "<a href=\"#fnref-" ++ toString (refs.headD 0)
      ++ "\" class=\"footnote\"><i class=\"fas fa-long-arrow-alt-up\"></i></a> "
  else
    "<i class=\"fas fa-long-arrow-alt-up\"></i> "
      ++ String.intercalate ", "
        (refs.enum.map (fun p =>
          "<a href=\"#fnref-" ++ toString p.2 ++ "\" class=\"footnote\">"
            ++ letterFromIndex (p.1 + 1) ++ "</a>"))
      ++ " "

/-- mistunePluginFootnotes.render_html_footnote_item. -/
def renderHtmlFootnoteItem (text key : String) (refs : List Nat) : String :=
  let back := footnoteBackLinks refs
  let text := pyRstrip text
  let text :=
    if text.startsWith "<p>" then "<p>" ++ back ++ text.drop 3
    else back ++ text
  "<li id=\"fn-" ++ key ++ "\">" ++ text ++ "</li>\n"

/-- mistunePluginFootnotes.render_html_footnote_ref, with the parameters
exactly as the source names them. -/
def renderHtmlFootnoteRef (_key : String) (index : Nat) (_fn : Nat) : String :=
  let i := toString index
  "<sup class=\"footnote-ref\" id=\"fnref-" ++ i ++ "\">"
    ++ "<a href=\"#fn-" ++ i ++ "\">" ++ i ++ "</a></sup>"

/-! ## Task list plugin (`mistunePluginTaskLists`) -/

/-- One entry of a token's `params` tuple: the base engine stores the list
nesting level (a number), the rewrite adds the checked flag (a boolean). -/
inductive PVal where
  | nat (n : Nat)
  | bool (b : Bool)
deriving DecidableEq, Repr

mutual
/-- Token of the parsed tree, `{'type', 'text', 'params', 'children'}`.
`text`/`params` are `none` when the dict lacks the key. `hasChildren`
models `'children' in tok.keys()`; when it is `false` the `children` field
is the empty list and the dict has no such key. -/
inductive Tok where
  | mk (ty : String) (text : Option String) (params : Option (List PVal))
       (hasChildren : Bool) (children : TokList)
deriving DecidableEq, Repr

/-- Token sequence (a separate inductive so the tree recursion below stays
structural). -/
inductive TokList where
  | nil
  | cons (t : Tok) (ts : TokList)
deriving DecidableEq, Repr
end

/-- Field accessor for the token type. -/
def Tok.ty : Tok → String
  | .mk ty _ _ _ _ => ty

/-- Field accessor for the token text. -/
def Tok.text : Tok → Option String
  | .mk _ text _ _ _ => text

/-- mistunePluginTaskLists.TASK_LIST_ITEM, the anchored regular expression
`^(\[[ xX]\])\s+` applied to a text: on success returns the checked flag
(`mark != '[ ]'`) and the text after `m.end()` (the maximal whitespace run
following the bracket; at least one whitespace character is required). -/
def taskListMatch (s : String) : Option (Bool × String) :=
  match s.data with
  | '[' :: c :: ']' :: rest =>
    if c = ' ' || c = 'x' || c = 'X' then
      if (rest.takeWhile isPySpace).isEmpty then none
      else some (c ≠ ' ', ⟨rest.dropWhile isPySpace⟩)
    else none
  | _ => none

/-- Body of `mistunePluginTaskLists._rewrite_list_item`, minus the in-place
mutation of the first child's text: given the fields of a token, it returns
`none` when Python would raise (`item['children']` with no such key,
`item['params']` with no such key, `params[0]` on an empty tuple), and
otherwise the new type, the new params, and the replacement text for the
first child (`none` when nothing matched or the item is not a list item). -/
def rewriteItemStep (ty : String) (params : Option (List PVal))
    (hasChildren : Bool) (children : TokList) :
    Option (String × Option (List PVal) × Option String) :=
  if ty = "list_item" then
    if hasChildren then
      match children with
      | .nil => some (ty, params, none)
      | .cons c _ =>
        match taskListMatch ((Tok.text c).getD "") with
        | none => some (ty, params, none)
        | some (checked, rest) =>
          match params with
          | none => none
          | some [] => none
          | some (p0 :: _) =>
            some ("task_list_item", some [p0, .bool checked], some rest)
    else none
  else some (ty, params, none)

/-- mistunePluginTaskLists._rewrite_all_list_items (which, for each token,
first applies `_rewrite_list_item` when the type is `list_item` and then
recurses into the children when present). The in-place write
`first_child['text'] = text[m.end():]` is threaded as the override `ov`
delivered to the child visit; `none` models a raised exception. -/
def rewriteTokList (ov : Option String) : TokList → Option TokList
  | .nil => some .nil
  | .cons (.mk ty text params hasChildren children) ts =>
    match rewriteItemStep ty params hasChildren children with
    | none => none
    | some (ty', params', ov') =>
      let text' := match ov with
        | some s => some s
        | none => text
      match (if hasChildren then rewriteTokList ov' children
             else some children) with
      | none => none
      | some children' =>
        match rewriteTokList none ts with
        | none => none
        | some ts' => some (.cons (.mk ty' text' params' hasChildren children') ts')

/-! ## Rule registration (`__call__` of each plugin) -/

/-- The registration pattern shared by the plugins' `__call__` methods:
`index = rules.index(anchor)` (raising `ValueError` when absent, modelled by
`none`), then `if index != -1: rules.insert(index + offset, newRule) else:
rules.append(newRule)`. -/
def registerRelative (rules : List String) (anchor newRule : String)
    (offset : Nat) : Option (List String) :=
  match listIndex rules anchor with
  | none => none
  | some index =>
    some (if (index : Int) ≠ -1 then insertAt rules (index + offset) newRule
          else rules ++ [newRule])

/-- mistunePluginFootnotes.__call__ on the inline rule table: insert
`footnote` before `std_link`. -/
def footnoteRegisterInline (rules : List String) : Option (List String) :=
  registerRelative rules "std_link" "footnote" 0

/-- mistunePluginFootnotes.__call__ on the block rule table: insert
`def_footnote` before `def_link`. -/
def footnoteRegisterBlock (rules : List String) : Option (List String) :=
  registerRelative rules "def_link" "def_footnote" 0

/-- mistunePluginMark.__call__: insert `mark` after `codespan`
(`rules.insert(index + 1, 'mark')`). -/
def markRegisterInline (rules : List String) : Option (List String) :=
  registerRelative rules "codespan" "mark" 1

/-- mistunePluginSpoiler.__call__: insert `spoiler_block` before
`block_quote`. -/
def spoilerRegisterBlock (rules : List String) : Option (List String) :=
  registerRelative rules "block_quote" "spoiler_block" 0

/-- mistunePluginFold.__call__: insert `fold_block` before `block_quote`. -/
def foldRegisterBlock (rules : List String) : Option (List String) :=
  registerRelative rules "block_quote" "fold_block" 0

/-! ## Fancy block plugin (`mistunePluginFancyBlocks`) -/

/-- Line 303 of the source, `text = m.group(4) or "" + "\n"`. Python
operator precedence parses this as `m.group(4) or ("" + "\n")`, so a falsy
capture (absent group or empty string) yields `"\n"` and otherwise the
newline is dropped. `g4 = none` models an absent capture group. -/
def fancyBlockText (g4 : Option String) : String :=
  match g4 with
  | none => "" ++ "\n"
  | some s => if s.isEmpty then "" ++ "\n" else s

/-- Backtracking tail of FANCY_BLOCK_HEADER: `\s*(.*)\n+` tried at offsets
`i, i-1, …, 0` of `rest` (the greedy `\s*` giving one character back per
step); `(.*)` takes the longest newline-free run and `\n+` must then match
at least one newline, consuming the maximal newline run. Returns the
capture and the text after the match. -/
def headerScan (rest : List Char) : Nat → Option (String × List Char)
  | 0 =>
    let line := rest.takeWhile (· ≠ '\n')
    match rest.dropWhile (· ≠ '\n') with
    | '\n' :: tl => some (⟨line⟩, tl.dropWhile (· = '\n'))
    | _ => none
  | i + 1 =>
    let after := rest.drop (i + 1)
    let line := after.takeWhile (· ≠ '\n')
    match after.dropWhile (· ≠ '\n') with
    | '\n' :: tl => some (⟨line⟩, tl.dropWhile (· = '\n'))
    | _ => headerScan rest i

/-- FANCY_BLOCK_HEADER, `re.match(r'^#{1,5}\s*(.*)\n+', text)`: one to five
leading `#` (a longer run leaves the excess to `\s*(.*)`), then the
backtracking tail. On success returns `m.group(1)` and the text with the
matched span removed (`FANCY_BLOCK_HEADER.sub('', text, 1)`), which is what
`parse_fancy_block` keeps as the body. -/
def matchFancyHeader (text : String) : Option (String × String) :=
  let hashes := (text.data.takeWhile (· = '#')).length
  if hashes = 0 then none
  else
    let rest := text.data.drop (min hashes 5)
    match headerScan rest ((rest.takeWhile isPySpace).length) with
    | none => none
    | some (h, rem) => some (h, ⟨rem⟩)

/-- Result of `mistunePluginFancyBlocks.parse_fancy_block`: the `params`
pair `(family, header)` and the body text handed to the recursive
`block.parse` (an engine call made with the heading rules removed; the
children it returns do not affect these fields). -/
structure FancyBlockNode where
  family : String
  header : Option String
  text : String
deriving DecidableEq, Repr

/-- mistunePluginFancyBlocks.parse_fancy_block, fed with `m.group(3)` (the
family capture) and `m.group(4)` (the body capture, absent on an empty
block). -/
def parseFancyBlock (g3 : String) (g4 : Option String) : FancyBlockNode :=
  let text := fancyBlockText g4
  let family := pyLower (pyStrip g3)
  match matchFancyHeader text with
  | none => { family := family, header := none, text := text }
  | some (h, rem) => { family := family, header := some h, text := rem }

/-- Class lookup chain at the top of
`mistunePluginFancyBlocks.render_html_fancy_block`. -/
def fancyBlockClass (family : String) : String :=
  if family = "info" ∨ family = "blue" then "alert alert-primary"
  else if family = "warning" ∨ family = "yellow" then "alert alert-secondary"
  else if family = "danger" ∨ family = "red" then "alert alert-danger"
  else if family = "success" ∨ family = "green" then "alert alert-success"
  else if family = "none" ∨ family = "empty" then "alert"
  else "alert"

/-- mistunePluginFancyBlocks.render_html_fancy_block. -/
def renderHtmlFancyBlock (text family : String) (header : Option String) :
    String :=
  let cls := fancyBlockClass family
  let headerHtml := match header with
    | some h => "<h4 class=\"alert-heading\">" ++ h ++ "</h4>"
    | none => ""
  let text := pyStrip text
  "<div class=\"" ++ cls ++ " mb-20\" role=\"alert\">" ++ headerHtml
    ++ "\n" ++ text ++ "</div>\n"

/-! ## Helper lemmas -/

/-- Python `list.index` raises (`none`) exactly when the element is
absent. -/
theorem listIndex_none_iff {l : List String} {x : String} :
    listIndex l x = none ↔ x ∉ l := by
  induction l with
  | nil => simp [listIndex]
  | cons a l ih =>
    by_cases h : a = x
    · simp [listIndex, h]
    · simp only [listIndex, if_neg h, Option.map_eq_none', ih,
        List.mem_cons, not_or]
      constructor
      · exact fun hx => ⟨fun e => h e.symm, hx⟩
      · exact fun hx => hx.2

/-- First index of `x` in a list split at its first occurrence. -/
theorem listIndex_append_cons (l1 : List String) (x : String)
    (l2 : List String) (h : x ∉ l1) :
    listIndex (l1 ++ x :: l2) x = some l1.length := by
  induction l1 with
  | nil => simp [listIndex]
  | cons a l ih =>
    have ha : ¬ a = x := fun e => h (e ▸ List.mem_cons_self a l)
    have hx : x ∉ l := fun hx => h (List.mem_cons_of_mem a hx)
    simp [listIndex, ha, ih hx]

/-- Python `list.insert` at the length of the first part splices between
the two parts. -/
theorem insertAt_append (l1 l2 : List String) (x : String) :
    insertAt (l1 ++ l2) l1.length x = l1 ++ x :: l2 := by
  induction l1 with
  | nil => cases l2 <;> simp [insertAt]
  | cons a l ih => simpa [insertAt] using ih

/-- Every member splits its list at a first occurrence. -/
theorem mem_split_first {x : String} {l : List String} (h : x ∈ l) :
    ∃ l1 l2, l = l1 ++ x :: l2 ∧ x ∉ l1 := by
  induction l with
  | nil => cases h
  | cons a l ih =>
    by_cases e : a = x
    · exact ⟨[], l, by rw [e]; rfl, by simp⟩
    · rcases List.mem_cons.mp h with h1 | h2
      · exact absurd h1.symm e
      · obtain ⟨l1, l2, rfl, hx⟩ := ih h2
        exact ⟨a :: l1, l2, rfl, by
          simp only [List.mem_cons, not_or]
          exact ⟨fun e2 => e e2.symm, hx⟩⟩

/-- The comprehension in `md_footnotes_hook` yields the empty list exactly
for keys that never occur in `footnotes`. -/
theorem refsOfAux_eq_nil {k : String} {fs : List String} :
    ∀ i, (refsOfAux k i fs = [] ↔ k ∉ fs) := by
  induction fs with
  | nil => simp [refsOfAux]
  | cons j js ih =>
    intro i
    by_cases h : j = k
    · simp [refsOfAux, h]
    · simp only [refsOfAux, if_neg h, ih, List.mem_cons, not_or]
      constructor
      · exact fun hx => ⟨fun e => h e.symm, hx⟩
      · exact fun hx => hx.2

/-! ## C10 -/

/-- C10: `parse_def_footnote` leaves the parse state entirely unchanged
when the normalized key is already present in `def_footnotes` (the first
definition wins); otherwise it appends exactly that key with the matched
definition text and modifies nothing else. -/
theorem def_footnote_first_wins (g2 g3 : String) (st : FState) :
    (unikey g2 ∈ st.defKeys → parseDefFootnote g2 g3 st = st)
    ∧ (unikey g2 ∉ st.defKeys →
        (parseDefFootnote g2 g3 st).def_footnotes
            = st.def_footnotes ++ [(unikey g2, g3)]
        ∧ (parseDefFootnote g2 g3 st).footnotes = st.footnotes
        ∧ (parseDefFootnote g2 g3 st).footnote_index = st.footnote_index) := by
  unfold parseDefFootnote
  constructor
  · intro h; simp [h]
  · intro h; simp [h]

/-- Witness for C10, at a state that already defines `a`: redefining `a` is
ignored, defining `b` appends it. -/
theorem def_footnote_first_wins_witness :
    parseDefFootnote "a" "t2" ⟨[("a", "t1")], [], 0⟩ = ⟨[("a", "t1")], [], 0⟩
    ∧ (parseDefFootnote "b" "t2" ⟨[("a", "t1")], [], 0⟩).def_footnotes
        = [("a", "t1"), ("b", "t2")] := by
  refine ⟨(def_footnote_first_wins "a" "t2" _).1 (by decide), ?_⟩
  have h := ((def_footnote_first_wins "b" "t2"
    ⟨[("a", "t1")], [], 0⟩).2 (by decide)).1
  rw [h]; decide

/-! ## C4 -/

/-- C4: an inline reference whose normalized key has no matching entry in
`def_footnotes` is returned as a plain text node carrying the matched
source, with the parse state untouched (so `footnote_index` and `footnotes`
are unchanged and nothing is raised); and when no reference resolved in the
document, the after-render hook returns the rendered result unchanged. -/
theorem unresolved_reference_leniency :
    (∀ g1 g0 st, unikey g1 ∉ st.defKeys →
        parseInlineFootnote g1 g0 st = (.text g0, st))
    ∧ (∀ renderSection result st, st.footnotes = [] →
        mdFootnotesHook renderSection result st = result) := by
  constructor
  · intro g1 g0 st h
    unfold parseInlineFootnote
    simp [h]
  · intro renderSection result st h
    unfold mdFootnotesHook
    rw [h]

/-- Witness for C4: a reference to the undefined key `x` stays literal text
and the hook is the identity on a no-reference state. -/
theorem unresolved_reference_leniency_witness :
    parseInlineFootnote "x" "[^x]" ⟨[("a", "t")], [], 0⟩
      = (.text "[^x]", ⟨[("a", "t")], [], 0⟩)
    ∧ mdFootnotesHook (fun _ => "SECTION") "RESULT" ⟨[("a", "t")], [], 0⟩
      = "RESULT" :=
  ⟨unresolved_reference_leniency.1 "x" "[^x]" ⟨[("a", "t")], [], 0⟩ (by decide),
   unresolved_reference_leniency.2 (fun _ => "SECTION") "RESULT"
     ⟨[("a", "t")], [], 0⟩ rfl⟩

/-! ## C8 -/

/-- C8: the family keyword is trimmed and lowercased at parse time, and the
HTML renderer maps it through the fixed table, with `none`, `empty` and any
unrecognized keyword all falling back to the plain class `alert`. -/
theorem fancy_block_family_table :
    (∀ g3 g4, (parseFancyBlock g3 g4).family = pyLower (pyStrip g3))
    ∧ fancyBlockClass "info" = "alert alert-primary"
    ∧ fancyBlockClass "blue" = "alert alert-primary"
    ∧ fancyBlockClass "warning" = "alert alert-secondary"
    ∧ fancyBlockClass "yellow" = "alert alert-secondary"
    ∧ fancyBlockClass "danger" = "alert alert-danger"
    ∧ fancyBlockClass "red" = "alert alert-danger"
    ∧ fancyBlockClass "success" = "alert alert-success"
    ∧ fancyBlockClass "green" = "alert alert-success"
    ∧ fancyBlockClass "none" = "alert"
    ∧ fancyBlockClass "empty" = "alert"
    ∧ (∀ family, family ∉ ["info", "blue", "warning", "yellow", "danger",
          "red", "success", "green"] → fancyBlockClass family = "alert")
    ∧ (∀ text family header, renderHtmlFancyBlock text family header
        = "<div class=\"" ++ fancyBlockClass family ++ " mb-20\" role=\"alert\">"
          ++ (match header with
              | some h => "<h4 class=\"alert-heading\">" ++ h ++ "</h4>"
              | none => "")
          ++ "\n" ++ pyStrip text ++ "</div>\n") := by
  refine ⟨?_, by decide, by decide, by decide, by decide, by decide, by decide,
    by decide, by decide, by decide, by decide, ?_, ?_⟩
  · intro g3 g4
    unfold parseFancyBlock
    cases h : matchFancyHeader (fancyBlockText g4) with
    | none => simp [h]
    | some v => cases v; simp [h]
  · intro family h
    simp only [List.mem_cons, List.not_mem_nil, not_or, or_false] at h
    obtain ⟨h1, h2, h3, h4, h5, h6, h7, h8⟩ := h
    simp [fancyBlockClass, h1, h2, h3, h4, h5, h6, h7, h8]
  · intro text family header
    rfl

/-- Witness for C8: the unrecognized keyword `custom` maps to the plain
class. -/
theorem fancy_block_family_table_witness :
    fancyBlockClass "custom" = "alert" :=
  fancy_block_family_table.2.2.2.2.2.2.2.2.2.2.2.1 "custom" (by decide)

/-! ## C5 -/

/-- C5 counterexample: with the body capture group absent, the extraction
`m.group(4) or "" + "\n"` evaluates to the one-character string `"\n"`, not
to the empty string the claim announces (Python precedence appends the
newline only inside the falsy fallback). -/
theorem fancy_block_missing_body_cex :
    fancyBlockText none = "\n" ∧ fancyBlockText none ≠ "" := by
  constructor <;> decide

/-- C5 amended: when the body capture group is absent, `parse_fancy_block`
does not raise, and the missing body resolves to the single newline `"\n"`
(not the empty string) before header extraction and the recursive parse;
on `"\n"` the header pattern does not match, so the node keeps body `"\n"`
and no header. -/
theorem fancy_block_missing_body_newline (g3 : String) :
    parseFancyBlock g3 none
      = { family := pyLower (pyStrip g3), header := none, text := "\n" } := by
  rfl

/-! ## C2 -/

/-- C2 counterexample: in the state reached by a document defining `a` and
`b` but referencing only `a` (so `footnotes = ["a"]` is nonempty and the
hook does append a section), the loop in `md_footnotes_hook` iterates over
*all* of `def_footnotes` without filtering, so the zero-reference
definition `b` also gets an ordered-list item (with an empty ref list) —
refuting "exactly one item per definition that has at least one reference;
a definition with zero references produces no list item", which here would
demand the single-item list `[("a", [1])]`. -/
theorem footnotes_hook_zero_ref_item_cex :
    (FState.mk [("a", "ta"), ("b", "tb")] ["a"] 1).footnotes ≠ []
    ∧ mdFootnotesHookItems ⟨[("a", "ta"), ("b", "tb")], ["a"], 1⟩
        = [("a", [1]), ("b", [])]
    ∧ mdFootnotesHookItems ⟨[("a", "ta"), ("b", "tb")], ["a"], 1⟩
        ≠ [("a", [1])] := by
  refine ⟨by decide, by decide, by decide⟩

/-- C2 amended: for every parse state with at least one resolved reference,
the after-render hook appends the rendered section built from exactly one
ordered list item per footnote *definition*, in declaration order and
regardless of its reference count; an item carries an empty back-link ref
list precisely when its definition was never referenced. -/
theorem footnotes_hook_items_per_definition
    (renderSection : List (String × List Nat) → String) (result : String)
    (st : FState) (h : st.footnotes ≠ []) :
    mdFootnotesHook renderSection result st
      = result ++ renderSection (mdFootnotesHookItems st)
    ∧ (mdFootnotesHookItems st).map Prod.fst = st.defKeys
    ∧ (mdFootnotesHookItems st).length = st.def_footnotes.length
    ∧ (∀ p ∈ mdFootnotesHookItems st, (p.2 = [] ↔ p.1 ∉ st.footnotes)) := by
  refine ⟨?_, ?_, ?_, ?_⟩
  · unfold mdFootnotesHook
    cases hf : st.footnotes with
    | nil => exact absurd hf h
    | cons a l => rfl
  · unfold mdFootnotesHookItems FState.defKeys
    rw [List.map_map]
    rfl
  · unfold mdFootnotesHookItems
    rw [List.length_map]
  · intro p hp
    obtain ⟨kv, _, rfl⟩ := List.mem_map.mp hp
    exact refsOfAux_eq_nil 0

/-- Witness for C2's amended statement, at a state with one referenced and
one unreferenced definition. -/
theorem footnotes_hook_items_per_definition_witness :
    mdFootnotesHook (fun items => toString items.length) "R"
      ⟨[("a", "ta"), ("b", "tb")], ["a"], 1⟩ = "R2"
    ∧ (mdFootnotesHookItems ⟨[("a", "ta"), ("b", "tb")], ["a"], 1⟩).length
        = 2 := by
  have h := footnotes_hook_items_per_definition
    (fun items => toString items.length) "R"
    ⟨[("a", "ta"), ("b", "tb")], ["a"], 1⟩ (by decide)
  refine ⟨?_, ?_⟩
  · rw [h.1]; decide
  · rw [h.2.2.1]; rfl

/-! ## C9 -/

/-- Registration fails (`list.index` raises `ValueError`) exactly when the
anchor rule is absent. -/
theorem registerRelative_none_iff {rules : List String}
    {anchor newRule : String} {offset : Nat} :
    registerRelative rules anchor newRule offset = none ↔ anchor ∉ rules := by
  unfold registerRelative
  cases h : listIndex rules anchor with
  | none => simp [listIndex_none_iff.mp h]
  | some i =>
    have hmem : anchor ∈ rules := by
      by_contra hn
      rw [← listIndex_none_iff] at hn
      rw [hn] at h
      cases h
    simp [hmem]

/-- C9: each anchor-relative plugin registration raises (is `none`) exactly
when its anchor rule is absent from the rule list, and whenever
`list.index` succeeds its result — being a natural number — is never `-1`,
so the guarded `index != -1` append-fallback branch is unreachable and a
completed registration always inserted at the anchor's position (plus the
plugin's offset). -/
theorem anchor_registration_raises (rules : List String) :
    (footnoteRegisterInline rules = none ↔ "std_link" ∉ rules)
    ∧ (footnoteRegisterBlock rules = none ↔ "def_link" ∉ rules)
    ∧ (markRegisterInline rules = none ↔ "codespan" ∉ rules)
    ∧ (spoilerRegisterBlock rules = none ↔ "block_quote" ∉ rules)
    ∧ (foldRegisterBlock rules = none ↔ "block_quote" ∉ rules)
    ∧ (∀ anchor newRule offset i, listIndex rules anchor = some i →
        ((i : Int) ≠ -1
        ∧ registerRelative rules anchor newRule offset
            = some (insertAt rules (i + offset) newRule))) := by
  refine ⟨registerRelative_none_iff, registerRelative_none_iff,
    registerRelative_none_iff, registerRelative_none_iff,
    registerRelative_none_iff, ?_⟩
  intro anchor newRule offset i h
  have hne : (i : Int) ≠ -1 := by omega
  refine ⟨hne, ?_⟩
  unfold registerRelative
  rw [h]
  simp [hne]

/-- Witness for C9: on a one-rule table, registration against a missing
anchor fails, and a found anchor at index 0 (never `-1`) leads to an
insertion. -/
theorem anchor_registration_raises_witness :
    footnoteRegisterInline ["paragraph"] = none
    ∧ ((0 : Int) ≠ -1
       ∧ registerRelative ["std_link"] "std_link" "footnote" 0
           = some (insertAt ["std_link"] (0 + 0) "footnote")) :=
  ⟨(anchor_registration_raises ["paragraph"]).1.mpr (by decide),
   (anchor_registration_raises ["std_link"]).2.2.2.2.2
     "std_link" "footnote" 0 0 (by decide)⟩

/-! ## C7 -/

/-- C7: registering the Spoiler plugin and then the Fold plugin on a block
rule table that contains `block_quote` (and neither new rule yet) places
both `spoiler_block` and `fold_block` strictly before `block_quote`, so for
input starting with `>` those rules are tried first. -/
theorem spoiler_fold_precede_block_quote (rules : List String)
    (hbq : "block_quote" ∈ rules) (hs : "spoiler_block" ∉ rules)
    (hf : "fold_block" ∉ rules) :
    ∃ rules₁ rules₂ i j k,
      spoilerRegisterBlock rules = some rules₁
      ∧ foldRegisterBlock rules₁ = some rules₂
      ∧ listIndex rules₂ "spoiler_block" = some i
      ∧ listIndex rules₂ "fold_block" = some j
      ∧ listIndex rules₂ "block_quote" = some k
      ∧ i < k ∧ j < k := by
  obtain ⟨l1, l2, rfl, hbq1⟩ := mem_split_first hbq
  have hs1 : "spoiler_block" ∉ l1 := fun hx =>
    hs (List.mem_append.mpr (Or.inl hx))
  have hf1 : "fold_block" ∉ l1 := fun hx =>
    hf (List.mem_append.mpr (Or.inl hx))
  have hidx1 : listIndex (l1 ++ "block_quote" :: l2) "block_quote"
      = some l1.length := listIndex_append_cons l1 _ l2 hbq1
  have hins1 : insertAt (l1 ++ "block_quote" :: l2) l1.length "spoiler_block"
      = l1 ++ "spoiler_block" :: "block_quote" :: l2 :=
    insertAt_append l1 ("block_quote" :: l2) _
  have hreg1 : spoilerRegisterBlock (l1 ++ "block_quote" :: l2)
      = some (l1 ++ "spoiler_block" :: "block_quote" :: l2) := by
    unfold spoilerRegisterBlock registerRelative
    rw [hidx1]
    have hne1 : ((l1.length : Int)) ≠ -1 := by omega
    simp [hne1, hins1]
  -- the fold registration sees the spoiler rule already inserted
  have hbq2 : "block_quote" ∉ l1 ++ ["spoiler_block"] := by
    intro hx
    rcases List.mem_append.mp hx with hx1 | hx2
    · exact hbq1 hx1
    · simp at hx2
  have hidx2 : listIndex (l1 ++ "spoiler_block" :: "block_quote" :: l2)
      "block_quote" = some (l1.length + 1) := by
    have := listIndex_append_cons (l1 ++ ["spoiler_block"]) "block_quote" l2 hbq2
    simpa using this
  have hins2 : insertAt (l1 ++ "spoiler_block" :: "block_quote" :: l2)
      (l1.length + 1) "fold_block"
      = l1 ++ "spoiler_block" :: "fold_block" :: "block_quote" :: l2 := by
    have := insertAt_append (l1 ++ ["spoiler_block"])
      ("block_quote" :: l2) "fold_block"
    simpa using this
  have hreg2 : foldRegisterBlock (l1 ++ "spoiler_block" :: "block_quote" :: l2)
      = some (l1 ++ "spoiler_block" :: "fold_block" :: "block_quote" :: l2) := by
    unfold foldRegisterBlock registerRelative
    rw [hidx2]
    simp [hins2]
    omega
  refine ⟨_, _, l1.length, l1.length + 1, l1.length + 2,
    hreg1, hreg2, ?_, ?_, ?_, by omega, by omega⟩
  · exact listIndex_append_cons l1 _ _ hs1
  · have hfm : "fold_block" ∉ l1 ++ ["spoiler_block"] := by
      intro hx
      rcases List.mem_append.mp hx with hx1 | hx2
      · exact hf1 hx1
      · simp at hx2
    have := listIndex_append_cons (l1 ++ ["spoiler_block"]) "fold_block"
      ("block_quote" :: l2) hfm
    simpa using this
  · have hbm : "block_quote" ∉ l1 ++ ["spoiler_block", "fold_block"] := by
      intro hx
      rcases List.mem_append.mp hx with hx1 | hx2
      · exact hbq1 hx1
      · simp at hx2
    have := listIndex_append_cons (l1 ++ ["spoiler_block", "fold_block"])
      "block_quote" l2 hbm
    simpa [Nat.add_assoc] using this

/-- Witness for C7, on the two-rule table `[paragraph, block_quote]`. -/
theorem spoiler_fold_precede_block_quote_witness :
    ∃ rules₁ rules₂ i j k,
      spoilerRegisterBlock ["paragraph", "block_quote"] = some rules₁
      ∧ foldRegisterBlock rules₁ = some rules₂
      ∧ listIndex rules₂ "spoiler_block" = some i
      ∧ listIndex rules₂ "fold_block" = some j
      ∧ listIndex rules₂ "block_quote" = some k
      ∧ i < k ∧ j < k :=
  spoiler_fold_precede_block_quote ["paragraph", "block_quote"]
    (by decide) (by decide) (by decide)

/-! ## C1 -/

/-- Invariant of running `parse_inline_footnote` over a document's matches:
the definition table is untouched; the resolved references receive the
consecutive `footnote_index` values starting right above the incoming
counter; the counter advances by the number of resolved references; and
every emitted `footnote_ref` carries `fn` equal to its key's declaration
index in `def_footnotes` plus one. -/
theorem processInlineRefs_spec (gs : List String) (st : FState) :
    (processInlineRefs st gs).2.def_footnotes = st.def_footnotes
    ∧ refIndices (processInlineRefs st gs).1
        = List.range' (st.footnote_index + 1)
            (refIndices (processInlineRefs st gs).1).length
    ∧ (processInlineRefs st gs).2.footnote_index
        = st.footnote_index + (refIndices (processInlineRefs st gs).1).length
    ∧ (∀ k f i, InlineTok.footnote_ref k f i ∈ (processInlineRefs st gs).1 →
        ∃ d, listIndex st.defKeys k = some d ∧ f = d + 1) := by
  induction gs generalizing st with
  | nil => simp [processInlineRefs, refIndices]
  | cons g gs ih =>
    by_cases hmem : unikey g ∈ st.defKeys
    · -- the reference resolves
      have hne : st.def_footnotes ≠ [] := by
        intro he
        rw [FState.defKeys, he] at hmem
        simp at hmem
      have hgfalse :
          ¬ ((st.def_footnotes.isEmpty
              || !(st.defKeys.contains (unikey g))) = true) := by
        simp [hmem, hne]
      have hunf : processInlineRefs st (g :: gs)
          = (InlineTok.footnote_ref (unikey g)
               ((listIndex st.defKeys (unikey g)).getD 0 + 1)
               (st.footnote_index + 1)
              :: (processInlineRefs
                   { st with footnote_index := st.footnote_index + 1,
                             footnotes := st.footnotes ++ [unikey g] } gs).1,
             (processInlineRefs
               { st with footnote_index := st.footnote_index + 1,
                         footnotes := st.footnotes ++ [unikey g] } gs).2) := by
        simp only [processInlineRefs, parseInlineFootnote]
        rw [if_neg hgfalse]
      obtain ⟨ih1, ih2, ih3, ih4⟩ :=
        ih { st with footnote_index := st.footnote_index + 1,
                     footnotes := st.footnotes ++ [unikey g] }
      have hsome : ∃ d, listIndex st.defKeys (unikey g) = some d := by
        cases hd : listIndex st.defKeys (unikey g) with
        | none => exact absurd (listIndex_none_iff.mp hd) (by simpa using hmem)
        | some d => exact ⟨d, rfl⟩
      rw [hunf]
      refine ⟨ih1, ?_, ?_, ?_⟩
      · simp only [refIndices, List.length_cons, List.range'_succ]
        exact congrArg _ ih2
      · simp only [refIndices, List.length_cons]
        rw [ih3]
        show st.footnote_index + 1 + _ = _
        omega
      · intro k f i hm
        rw [List.mem_cons] at hm
        rcases hm with hm1 | hm2
        · obtain ⟨d, hd⟩ := hsome
          obtain ⟨rfl, rfl, rfl⟩ :
              k = unikey g
              ∧ f = (listIndex st.defKeys (unikey g)).getD 0 + 1
              ∧ i = st.footnote_index + 1 := by
            cases hm1; exact ⟨rfl, rfl, rfl⟩
          exact ⟨d, hd, by rw [hd]; rfl⟩
        · exact ih4 k f i hm2
    · -- the reference does not resolve: literal text, state unchanged
      have hgtrue :
          (st.def_footnotes.isEmpty
            || !(st.defKeys.contains (unikey g))) = true := by
        simp [hmem]
      have hunf : processInlineRefs st (g :: gs)
          = (InlineTok.text ("[^" ++ g ++ "]") :: (processInlineRefs st gs).1,
             (processInlineRefs st gs).2) := by
        simp only [processInlineRefs, parseInlineFootnote]
        rw [if_pos hgtrue]
      obtain ⟨ih1, ih2, ih3, ih4⟩ := ih st
      rw [hunf]
      refine ⟨ih1, by simpa [refIndices] using ih2,
        by simpa [refIndices] using ih3, ?_⟩
      intro k f i hm
      rw [List.mem_cons] at hm
      rcases hm with hm1 | hm2
      · simp at hm1
      · exact ih4 k f i hm2

/-- C1: starting from a fresh parse state holding the declared definitions,
the resolved references of a document are numbered `1, 2, 3, …` in the
order they occur in the rendered output (the k-th resolved reference
receives `footnote_index` value k, whatever the declaration order), and
each emitted `footnote_ref`'s item ordinal `fn` equals its definition's
declaration index in `def_footnotes` plus one. -/
theorem footnote_ref_numbering (defs : List (String × String))
    (gs : List String) :
    refIndices (processInlineRefs ⟨defs, [], 0⟩ gs).1
      = List.range' 1 (refIndices (processInlineRefs ⟨defs, [], 0⟩ gs).1).length
    ∧ (∀ k f i,
        InlineTok.footnote_ref k f i ∈ (processInlineRefs ⟨defs, [], 0⟩ gs).1 →
        ∃ d, listIndex (defs.map Prod.fst) k = some d ∧ f = d + 1) :=
  ⟨(processInlineRefs_spec gs ⟨defs, [], 0⟩).2.1,
   (processInlineRefs_spec gs ⟨defs, [], 0⟩).2.2.2⟩

/-- Witness for C1: with definitions declared in order `a`, `b` and
references occurring in order `b`, `a`, `c` (the last unresolvable), the
first resolved reference gets number 1 while its `fn` is 2 (declaration
index 1 plus one). -/
theorem footnote_ref_numbering_witness :
    ∃ d, listIndex ["a", "b"] "b" = some d ∧ 2 = d + 1 :=
  (footnote_ref_numbering [("a", "ta"), ("b", "tb")] ["b", "a", "c"]).2
    "b" 2 1 (by decide)

/-! ## C3 -/

/-- The recursive letter computation agrees with the bijective base-26
numeral for every index from 1 on: both recurse on `(n - 1) / 26` and both
write the digit `'a' + ((n - 1) % 26)`, the source writing `z` for a zero
remainder. -/
theorem letterFromIndexL_eq_bij :
    ∀ n, 1 ≤ n → letterFromIndexL n = bijectiveBase26L n := by
  intro n
  induction n using Nat.strong_induction_on with
  | _ n ih =>
    intro h1
    match n, h1 with
    | m + 1, _ =>
      rw [letterFromIndexL, bijectiveBase26L]
      have hq : (m + 1 - 1) / 26 = m / 26 := by omega
      congr 1
      · rw [hq]
        by_cases hpos : 0 < m / 26
        · rw [dif_pos hpos]
          exact ih (m / 26)
            (by have := Nat.div_le_self m 26; omega) (by omega)
        · rw [dif_neg hpos]
          have hz : m / 26 = 0 := by omega
          rw [hz, bijectiveBase26L]
      · by_cases hr : 0 < (m + 1) % 26
        · rw [if_pos hr]
          have : 'a'.toNat + (m + 1) % 26 - 1 = 'a'.toNat + m % 26 := by
            have h26 : (m + 1) % 26 = m % 26 + 1 := by omega
            rw [h26]
            omega
          rw [this]
        · rw [if_neg hr]
          have h25 : m % 26 = 25 := by omega
          rw [h25]
          rfl

/-- C3: `_letter_from_index` computes exactly the bijective base-26 letter
sequence (`a, b, …, z, aa, ab, …`) for every index `i ≥ 1`; a footnote item
with exactly one ref carries a single unlabeled up-arrow back-link, while a
footnote item with `N > 1` refs carries exactly `N` back-links (one per
ref, in order) labeled by the first `N` bijective base-26 numerals. -/
theorem backlink_letters :
    (∀ i, 1 ≤ i → letterFromIndex i = bijectiveBase26 i)
    ∧ (∀ r : Nat, footnoteBackLinks [r]
        = "<a href=\"#fnref-" ++ toString r
          ++ "\" class=\"footnote\"><i class=\"fas fa-long-arrow-alt-up\"></i></a> ")
    ∧ (∀ refs : List Nat, 1 < refs.length →
        footnoteBackLinks refs
          = "<i class=\"fas fa-long-arrow-alt-up\"></i> "
            ++ String.intercalate ", "
              (refs.enum.map (fun p =>
                "<a href=\"#fnref-" ++ toString p.2 ++ "\" class=\"footnote\">"
                  ++ bijectiveBase26 (p.1 + 1) ++ "</a>"))
            ++ " "
        ∧ (refs.enum.map (fun p =>
            "<a href=\"#fnref-" ++ toString p.2 ++ "\" class=\"footnote\">"
              ++ bijectiveBase26 (p.1 + 1) ++ "</a>")).length = refs.length) := by
  have hletter : ∀ i, 1 ≤ i → letterFromIndex i = bijectiveBase26 i :=
    fun i hi => congrArg String.mk (letterFromIndexL_eq_bij i hi)
  refine ⟨hletter, ?_, ?_⟩
  · intro r
    simp [footnoteBackLinks]
  · intro refs hlen
    constructor
    · unfold footnoteBackLinks
      rw [if_neg (by omega)]
      congr 2
      refine congrArg _ (List.map_congr_left ?_)
      intro p _
      rw [hletter (p.1 + 1) (by omega)]
    · simp

/-- Witness for C3, at index 28 (`ab`) and the two-ref list `[7, 9]`. -/
theorem backlink_letters_witness :
    letterFromIndex 28 = bijectiveBase26 28
    ∧ footnoteBackLinks [7, 9]
        = "<i class=\"fas fa-long-arrow-alt-up\"></i> "
          ++ String.intercalate ", "
            (([7, 9] : List Nat).enum.map (fun p =>
              "<a href=\"#fnref-" ++ toString p.2 ++ "\" class=\"footnote\">"
                ++ bijectiveBase26 (p.1 + 1) ++ "</a>"))
          ++ " " :=
  ⟨backlink_letters.1 28 (by omega),
   (backlink_letters.2.2 [7, 9] (by decide)).1⟩

/-! ## C6 -/

/-- A token visited with no pending text override keeps its `text` field (the
rewrite only retypes items and strips the matched marker). -/
theorem rewriteTokList_head_text {c : Tok} {cr out : TokList}
    (h : rewriteTokList none (.cons c cr) = some out) :
    ∃ c1 cr1, out = .cons c1 cr1 ∧ c1.text = c.text := by
  cases c with
  | mk ty text params hasCh children =>
    simp only [rewriteTokList] at h
    cases hstep : rewriteItemStep ty params hasCh children with
    | none => rw [hstep] at h; cases h
    | some trip =>
      obtain ⟨ty', params', ov'⟩ := trip
      rw [hstep] at h
      dsimp only at h
      cases hch : (if hasCh then rewriteTokList ov' children
                   else some children) with
      | none => rw [hch] at h; cases h
      | some children' =>
        rw [hch] at h
        cases hts : rewriteTokList none cr with
        | none => rw [hts] at h; cases h
        | some tail' =>
          rw [hts] at h
          simp only [Option.some.injEq] at h
          subst h
          exact ⟨_, _, rfl, rfl⟩

/-- Core induction for idempotence: any successful run of the rewrite, with
any pending text override, produces a token list that a second
override-free run maps to itself. -/
theorem rewrite_idem_aux :
    ∀ fuel ts, sizeOf ts ≤ fuel → ∀ ov ts',
      rewriteTokList ov ts = some ts' → rewriteTokList none ts' = some ts' := by
  intro fuel
  induction fuel with
  | zero =>
    intro ts hts
    exfalso
    cases ts <;> simp at hts
  | succ n ih =>
    intro ts hts ov ts' h
    cases ts with
    | nil =>
      simp only [rewriteTokList] at h
      cases h
      simp only [rewriteTokList]
    | cons t tail =>
      cases t with
      | mk ty text params hasCh children =>
        have hszc : sizeOf children ≤ n ∧ sizeOf tail ≤ n := by
          simp only [TokList.cons.sizeOf_spec, Tok.mk.sizeOf_spec] at hts
          omega
        simp only [rewriteTokList] at h
        cases hstep : rewriteItemStep ty params hasCh children with
        | none => rw [hstep] at h; cases h
        | some trip =>
          obtain ⟨ty', params', ov'⟩ := trip
          rw [hstep] at h
          dsimp only at h
          cases hch : (if hasCh then rewriteTokList ov' children
                       else some children) with
          | none => rw [hch] at h; cases h
          | some children' =>
            rw [hch] at h
            cases hts2 : rewriteTokList none tail with
            | none => rw [hts2] at h; cases h
            | some tail' =>
              rw [hts2] at h
              simp only [Option.some.injEq] at h
              subst h
              have htail' : rewriteTokList none tail' = some tail' :=
                ih tail hszc.2 none tail' hts2
              by_cases hty : ty = "list_item"
              · subst hty
                cases hasCh with
                | false => simp [rewriteItemStep] at hstep
                | true =>
                  rw [if_pos rfl] at hch
                  cases children with
                  | nil =>
                    simp only [rewriteItemStep, if_pos rfl, if_true,
                      Option.some.injEq, Prod.mk.injEq] at hstep
                    obtain ⟨rfl, rfl, rfl⟩ := hstep
                    simp only [rewriteTokList] at hch
                    cases hch
                    have hnil : rewriteTokList none TokList.nil
                        = some TokList.nil := by simp only [rewriteTokList]
                    simp only [rewriteTokList]
                    rw [show rewriteItemStep "list_item" params true TokList.nil
                        = some ("list_item", params, none) from by
                          simp [rewriteItemStep]]
                    simp [hnil, htail']
                  | cons c cr =>
                    cases hm : taskListMatch ((Tok.text c).getD "") with
                    | none =>
                      simp only [rewriteItemStep, if_pos rfl, if_true, hm,
                        Option.some.injEq, Prod.mk.injEq] at hstep
                      obtain ⟨rfl, rfl, rfl⟩ := hstep
                      obtain ⟨c1, cr1, rfl, hc1⟩ := rewriteTokList_head_text hch
                      have hchild2 :
                          rewriteTokList none (TokList.cons c1 cr1)
                            = some (TokList.cons c1 cr1) :=
                        ih (TokList.cons c cr) hszc.1 none _ hch
                      have hm1 : taskListMatch ((Tok.text c1).getD "") = none := by
                        rw [hc1]; exact hm
                      simp only [rewriteTokList]
                      rw [show rewriteItemStep "list_item" params true
                            (TokList.cons c1 cr1)
                          = some ("list_item", params, none) from by
                            simp [rewriteItemStep, hm1]]
                      simp [hchild2, htail']
                    | some pair =>
                      obtain ⟨checked, rest⟩ := pair
                      cases params with
                      | none =>
                        simp [rewriteItemStep, hm] at hstep
                      | some ps =>
                        cases ps with
                        | nil => simp [rewriteItemStep, hm] at hstep
                        | cons p0 pr =>
                          simp only [rewriteItemStep, if_pos rfl, if_true, hm,
                            Option.some.injEq, Prod.mk.injEq] at hstep
                          obtain ⟨rfl, rfl, rfl⟩ := hstep
                          have hchild2 :
                              rewriteTokList none children' = some children' :=
                            ih (TokList.cons c cr) hszc.1 _ children' hch
                          simp only [rewriteTokList]
                          rw [show rewriteItemStep "task_list_item"
                                (some [p0, PVal.bool checked]) true children'
                              = some ("task_list_item",
                                  some [p0, PVal.bool checked], none) from by
                                simp [rewriteItemStep]]
                          simp [hchild2, htail']
              · -- not a list item: the step is the identity
                simp only [rewriteItemStep, if_neg hty, Option.some.injEq,
                  Prod.mk.injEq] at hstep
                obtain ⟨rfl, rfl, rfl⟩ := hstep
                have hchild2 : (if hasCh then rewriteTokList none children'
                    else some children') = some children' := by
                  cases hasCh with
                  | false =>
                    rw [if_neg (by simp)]
                  | true =>
                    rw [if_pos rfl] at hch ⊢
                    exact ih children hszc.1 _ children' hch
                simp only [rewriteTokList]
                rw [show rewriteItemStep ty params hasCh children'
                    = some (ty, params, none) from by
                      simp [rewriteItemStep, hty]]
                simp only [hchild2, htail']

/-- C6: the task-list tree rewrite is idempotent — whenever
`_rewrite_all_list_items` succeeds on a token tree, running it again on the
result reproduces the result unchanged (matched items were retyped to
`task_list_item` and their markers stripped, so nothing matches twice). -/
theorem task_list_rewrite_idempotent (ts ts' : TokList)
    (h : rewriteTokList none ts = some ts') :
    rewriteTokList none ts' = some ts' :=
  rewrite_idem_aux (sizeOf ts) ts (Nat.le_refl _) none ts' h

/-- Witness for C6: a one-item list whose paragraph text starts with
`[x] ` is rewritten to a checked `task_list_item` with the marker
stripped, and the rewrite of that result is the result itself. -/
theorem task_list_rewrite_idempotent_witness :
    rewriteTokList none
      (TokList.cons
        (Tok.mk "task_list_item" none (some [PVal.nat 1, PVal.bool true]) true
          (TokList.cons (Tok.mk "paragraph" (some "do") none false TokList.nil)
            TokList.nil))
        TokList.nil)
    = some (TokList.cons
        (Tok.mk "task_list_item" none (some [PVal.nat 1, PVal.bool true]) true
          (TokList.cons (Tok.mk "paragraph" (some "do") none false TokList.nil)
            TokList.nil))
        TokList.nil) :=
  task_list_rewrite_idempotent
    (TokList.cons
      (Tok.mk "list_item" none (some [PVal.nat 1]) true
        (TokList.cons
          (Tok.mk "paragraph" (some "[x] do") none false TokList.nil)
          TokList.nil))
      TokList.nil)
    (TokList.cons
      (Tok.mk "task_list_item" none (some [PVal.nat 1, PVal.bool true]) true
        (TokList.cons (Tok.mk "paragraph" (some "do") none false TokList.nil)
          TokList.nil))
      TokList.nil)
    (by simp [rewriteTokList, rewriteItemStep, taskListMatch, isPySpace,
          Tok.text])
